import Mathlib

/-!
Verification of structural properties of the plenoptic steerable pyramid
(`steerable_pyramid_freq.py`) and perceptual distance metrics
(`perceptual_distance.py`), via a shallow embedding in Lean 4.

Tensors are modelled over `ℚ` (exact arithmetic); torch division is total
(division by zero yields zero, as in Lean's `ℚ`).  Helpers that live outside
the provided sources (the Gaussian window `circular_gaussian2d`, the
`LaplacianPyramid` class, `local_gain_control`, and the on-disk sigma/filter
tables) are modelled from the spec as parameters with the properties the
spec states for them.
-/

namespace Plenoptic

/-- Identifier of a "scale" as accepted by `forward`'s `scales` argument and
stored in `self.scales`: an integer scale, or one of the two residual
strings. -/
inductive ScaleId where
  | scale (i : ℕ)
  | residualHighpass
  | residualLowpass
deriving DecidableEq, Repr

/-- Key of the coefficient `OrderedDict`: `(scale, orientation)` tuples plus
the `'residual_highpass'` / `'residual_lowpass'` strings. -/
inductive PyrKey where
  | band (s b : ℕ)
  | residualHighpass
  | residualLowpass
deriving DecidableEq, Repr

/-- `self.scales` as built in `__init__`:
`['residual_lowpass'] + list(range(self.num_scales))[::-1] + ['residual_highpass']`. -/
def spfScalesAttr (numScales : ℕ) : List ScaleId :=
  [ScaleId.residualLowpass] ++ (List.range numScales).reverse.map ScaleId.scale
    ++ [ScaleId.residualHighpass]

/-- The keys inserted into `pyr_coeffs` by `forward`, in insertion order,
mirroring the body of `Steerable_Pyramid_Freq.forward`: `residual_highpass`
first if requested, then for each scale `i` from `0` to `num_scales - 1`
that is requested, the bands `(i, 0) .. (i, num_orientations - 1)`, then
`residual_lowpass` last if requested.  An empty `scales` list is replaced by
`self.scales` (= everything). -/
def forwardKeyList (numScales numOrientations : ℕ) (scales : List ScaleId) :
    List PyrKey :=
  let sc := if scales = [] then spfScalesAttr numScales else scales
  (if ScaleId.residualHighpass ∈ sc then [PyrKey.residualHighpass] else []) ++
  ((List.range numScales).map (fun i =>
      if ScaleId.scale i ∈ sc then (List.range numOrientations).map (PyrKey.band i)
      else [])).flatten ++
  (if ScaleId.residualLowpass ∈ sc then [PyrKey.residualLowpass] else [])

/-- The canonical full key list of a forward call that includes every scale:
`residual_highpass`, then all `(scale, orientation)` pairs with scale from
`0` (finest) to `num_scales - 1` and orientation from `0` to
`num_orientations - 1`, then `residual_lowpass`. -/
def allPyrKeys (numScales numOrientations : ℕ) : List PyrKey :=
  [PyrKey.residualHighpass] ++
  ((List.range numScales).map (fun i =>
      (List.range numOrientations).map (PyrKey.band i))).flatten ++
  [PyrKey.residualLowpass]

/-- The keys demanded by the guard at the top of `recon_pyr` (lines 605-616):
for each `s` in `self.scales`, the residual key itself when `s` is a string,
and the bands `(s, 0) .. (s, num_orientations - 1)` when `s` is an int. -/
def reconRequiredKeys (numScales numOrientations : ℕ) : List PyrKey :=
  ((spfScalesAttr numScales).map (fun s =>
    match s with
    | ScaleId.scale i => (List.range numOrientations).map (PyrKey.band i)
    | ScaleId.residualHighpass => [PyrKey.residualHighpass]
    | ScaleId.residualLowpass => [PyrKey.residualLowpass])).flatten

/-- The guard at the top of `recon_pyr`: it raises (returns `false` here) iff
some required key is absent from the coefficient mapping.  This check runs
before `twidth` handling, `_recon_keys` and all reconstruction work, and does
not look at the `levels` / `bands` arguments. -/
def reconPyrCheckOk (numScales numOrientations : ℕ)
    (coeffKeys : List PyrKey) : Bool :=
  (reconRequiredKeys numScales numOrientations).all (fun k => k ∈ coeffKeys)

/-- `recon_pyr` modelled up to the point where actual spectrum arithmetic
starts: the missing-key guard runs first and aborts with an exception,
independently of the requested `levels` / `bands` subset. -/
def reconPyrGate (numScales numOrientations : ℕ) (coeffKeys : List PyrKey)
    (levels bands : List ℕ) : Except String (List ℕ × List ℕ) :=
  if reconPyrCheckOk numScales numOrientations coeffKeys then
    Except.ok (levels, bands)
  else
    Except.error "scale not in pyr_coeffs! pyr_coeffs must include all scales"

/-- Configuration produced by `Steerable_Pyramid_Freq.__init__`, together
with the two warning flags the constructor can raise on repairable
parameters. -/
structure SPFConfig where
  numScales : ℤ
  order : ℤ
  numOrientations : ℤ
  twidth : ℤ
  warnedOrder : Bool
  warnedTwidth : Bool
deriving DecidableEq, Repr

/-- `max_ht = np.floor(np.log2(min(H, W))) - 2`, with the float `log2`
modelled exactly: for `n ≥ 1`, `Nat.log 2 n = ⌊log2 n⌋`. -/
def spfMaxHt (h w : ℕ) : ℤ :=
  (Nat.log 2 (min h w) : ℤ) - 2

/-- The order clamp and twidth reset of `__init__` (lines 114-122), which
run once the height check has passed: out-of-range `order` is truncated to
`min(max(order, 1), 15)` with a warning, `num_orientations = order + 1`,
non-positive `twidth` is set to `1` with a warning. -/
def spfValidated (order twidth ns : ℤ) : SPFConfig :=
  { numScales := ns
    order := if order > 15 ∨ order ≤ 0 then min (max order 1) 15 else order
    numOrientations :=
      (if order > 15 ∨ order ≤ 0 then min (max order 1) 15 else order) + 1
    twidth := if twidth ≤ 0 then 1 else twidth
    warnedOrder := decide (order > 15 ∨ order ≤ 0)
    warnedTwidth := decide (twidth ≤ 0) }

/-- `Steerable_Pyramid_Freq.__init__` restricted to the parameter-validation
logic (lines 106-122): first the height check (`raise` when the requested
height exceeds `max_ht`), then the order clamp and the twidth reset.
`height = none` models `height='auto'`. -/
def spfInit (h w : ℕ) (height : Option ℤ) (order twidth : ℤ) :
    Except String SPFConfig :=
  match height with
  | none => Except.ok (spfValidated order twidth (spfMaxHt h w))
  | some ht =>
      if ht > spfMaxHt h w then Except.error "Cannot build pyramid higher"
      else Except.ok (spfValidated order twidth ht)

/-- The `'residual' in k` test of `convert_pyr_to_tensor`: true exactly on the
two residual string keys (membership of `'residual'` in an int tuple is
`False` in Python). -/
def isResidualKey : PyrKey → Bool
  | PyrKey.band _ _ => false
  | PyrKey.residualHighpass => true
  | PyrKey.residualLowpass => true

/-- `convert_pyr_to_tensor`: coefficient values are stacked along the channel
dimension, residual bands split out and re-attached at the two ends.  A
tensor is modelled as its list of channel planes (`List α`); `torch.cat`
along channels is list append. -/
def convertPyrToTensor {α : Type} (pyr : List (PyrKey × List α)) : List α :=
  let residList := (pyr.filter (fun kv => isResidualKey kv.1)).map Prod.snd
  let bandList := (pyr.filter (fun kv => !isResidualKey kv.1)).map Prod.snd
  if bandList.length > 0 then
    let coeffBands := bandList.flatten
    match residList with
    | [r] => r ++ coeffBands
    | [r0, r1] => r0 ++ coeffBands ++ r1
    | _ => coeffBands
  else residList.flatten

/-- Loop body of `convert_tensor_to_pyr`: key number `i` receives channel `i`
of the tensor, as a one-channel value (`pyr_tensor[:, i, ...].unsqueeze(1)`). -/
def convertTensorToPyrGo {α : Type} (t : List α) :
    ℕ → List PyrKey → List (PyrKey × List α)
  | _, [] => []
  | i, k :: ks => (k, (t.drop i).take 1) :: convertTensorToPyrGo t (i + 1) ks

/-- `convert_tensor_to_pyr`: walks the key list (`self.pyr_size.keys()`) with
a running channel counter. -/
def convertTensorToPyr {α : Type} (keyList : List PyrKey) (t : List α) :
    List (PyrKey × List α) :=
  convertTensorToPyrGo t 0 keyList

/-! ### SSIM (`_ssim_parts`, `ssim`, `ms_ssim`)

Images are functions `ℕ → ℕ → ℚ` together with their size `(h, w)`; the
claims are about a single batch/channel entry, which the code processes
independently (it reshapes to `batch*channel` before the convolution).
`circular_gaussian2d` is not among the provided sources.  Modelled from the
spec: the SSIM window is a normalized sliding-window weighting, passed here
as a generator `wgen` from the kernel size to the window, about which the
theorems assume exactly what the code establishes (entries nonnegative,
window sums to one). -/

/-- `real_size = min(11, img1.shape[2], img1.shape[3])`. -/
def realSize (h w : ℕ) : ℕ := min 11 (min h w)

/-- `F.conv2d(img, window, padding=0)` at output pixel `(i, j)`: a windowed
(cross-correlation) average of a `k × k` neighbourhood. -/
def windowedAverage (k : ℕ) (win img : ℕ → ℕ → ℚ) (i j : ℕ) : ℚ :=
  ∑ p ∈ Finset.range k, ∑ q ∈ Finset.range k, win p q * img (i + p) (j + q)

/-- `sigma1_sq = windowed_average(img1 * img1) - mu1 ** 2`. -/
def ssimSigmaSq (k : ℕ) (win img : ℕ → ℕ → ℚ) (i j : ℕ) : ℚ :=
  windowedAverage k win (fun a b => img a b * img a b) i j -
    (windowedAverage k win img i j) ^ 2

/-- `sigma12 = windowed_average(img1 * img2) - mu1_mu2`. -/
def ssimSigma12 (k : ℕ) (win img1 img2 : ℕ → ℕ → ℚ) (i j : ℕ) : ℚ :=
  windowedAverage k win (fun a b => img1 a b * img2 a b) i j -
    windowedAverage k win img1 i j * windowedAverage k win img2 i j

/-- `C1 = (0.01 * dynamic_range) ** 2`. -/
def ssimC1 (d : ℚ) : ℚ := (1 / 100 * d) ^ 2

/-- `C2 = (0.03 * dynamic_range) ** 2`. -/
def ssimC2 (d : ℚ) : ℚ := (3 / 100 * d) ^ 2

/-- `luminance_map = (2 * mu1_mu2 + C1) / (mu1_sq + mu2_sq + C1)`. -/
def luminanceMap (k : ℕ) (win : ℕ → ℕ → ℚ) (d : ℚ) (img1 img2 : ℕ → ℕ → ℚ)
    (i j : ℕ) : ℚ :=
  (2 * (windowedAverage k win img1 i j * windowedAverage k win img2 i j) + ssimC1 d) /
    ((windowedAverage k win img1 i j) ^ 2 + (windowedAverage k win img2 i j) ^ 2 +
      ssimC1 d)

/-- `contrast_structure_map = (2.0 * sigma12 + C2) / (sigma1_sq + sigma2_sq + C2)`. -/
def contrastStructureMap (k : ℕ) (win : ℕ → ℕ → ℚ) (d : ℚ)
    (img1 img2 : ℕ → ℕ → ℚ) (i j : ℕ) : ℚ :=
  (2 * ssimSigma12 k win img1 img2 i j + ssimC2 d) /
    (ssimSigmaSq k win img1 i j + ssimSigmaSq k win img2 i j + ssimC2 d)

/-- `map_ssim = luminance_map * contrast_structure_map`. -/
def mapSsim (k : ℕ) (win : ℕ → ℕ → ℚ) (d : ℚ) (img1 img2 : ℕ → ℕ → ℚ)
    (i j : ℕ) : ℚ :=
  luminanceMap k win d img1 img2 i j * contrastStructureMap k win d img1 img2 i j

/-- Output spatial size of the valid (unpadded) `k × k` convolution. -/
def convOutSize (n k : ℕ) : ℕ := n - k + 1

/-- `.mean((-1, -2))`: mean of a map of spatial size `oh × ow`. -/
def meanOverMap (oh ow : ℕ) (f : ℕ → ℕ → ℚ) : ℚ :=
  (∑ i ∈ Finset.range oh, ∑ j ∈ Finset.range ow, f i j) / (oh * ow : ℕ)

/-- `ssim` with `weighted=False` (the default): the plain spatial mean of the
SSIM map, for one batch/channel entry. -/
def ssimUnweighted (wgen : ℕ → ℕ → ℕ → ℚ) (d : ℚ) (h w : ℕ)
    (img1 img2 : ℕ → ℕ → ℚ) : ℚ :=
  meanOverMap (convOutSize h (realSize h w)) (convOutSize w (realSize h w))
    (mapSsim (realSize h w) (wgen (realSize h w)) d img1 img2)

/-- The spatial mean of the contrast-structure map, as used per scale in
`ms_ssim`. -/
def csMeanVal (wgen : ℕ → ℕ → ℕ → ℚ) (d : ℚ) (h w : ℕ)
    (img1 img2 : ℕ → ℕ → ℚ) : ℚ :=
  meanOverMap (convOutSize h (realSize h w)) (convOutSize w (realSize h w))
    (contrastStructureMap (realSize h w) (wgen (realSize h w)) d img1 img2)

/-- `F.pad(img, (0, w % 2, 0, h % 2), mode="replicate")`: replicate the last
row/column when the size is odd. -/
def replicatePad (h w : ℕ) (img : ℕ → ℕ → ℚ) : ℕ → ℕ → ℚ :=
  fun i j => img (min i (h - 1)) (min j (w - 1))

/-- `F.avg_pool2d(img, kernel_size=2)`. -/
def avgPool2 (img : ℕ → ℕ → ℚ) : ℕ → ℕ → ℚ :=
  fun i j =>
    (img (2 * i) (2 * j) + img (2 * i) (2 * j + 1) + img (2 * i + 1) (2 * j) +
      img (2 * i + 1) (2 * j + 1)) / 4

/-- The `downsample` helper inside `ms_ssim`: replicate-pad to even size,
then 2×2 average pooling. -/
def msDownsample (h w : ℕ) (img : ℕ → ℕ → ℚ) : ℕ → ℕ → ℚ :=
  avgPool2 (replicatePad h w img)

/-- Spatial size after `msDownsample`. -/
def msDownSize (n : ℕ) : ℕ := (n + n % 2) / 2

/-- `F.relu`. -/
def reluQ (x : ℚ) : ℚ := max x 0

/-- `ms_ssim`: for all but the last element of `power_factors`, multiply in
`relu(mean contrast-structure) ** a` and downsample both images; for the last
element, multiply in `relu(mean SSIM map) ** a`.  The elementwise tensor
power `**` is kept as an explicit function parameter `rpow` (it is a
transcendental float operation); theorems state the properties of `rpow`
they rely on. -/
def msSsim (rpow : ℚ → ℚ → ℚ) (wgen : ℕ → ℕ → ℕ → ℚ) (d : ℚ) :
    List ℚ → ℕ → ℕ → (ℕ → ℕ → ℚ) → (ℕ → ℕ → ℚ) → ℚ
  | [], _, _, _, _ => 1
  | [a], h, w, img1, img2 => rpow (reluQ (ssimUnweighted wgen d h w img1 img2)) a
  | a :: rest, h, w, img1, img2 =>
      rpow (reluQ (csMeanVal wgen d h w img1 img2)) a *
        msSsim rpow wgen d rest (msDownSize h) (msDownSize w)
          (msDownsample h w img1) (msDownsample h w img2)

/-! ### NLPD and NSPD

`LaplacianPyramid`, `local_gain_control` and the on-disk parameter tables
(`DN_filts.npy`, `DN_sigmas.npy`, `nspd_sigmas.pickle`) are not among the
provided sources.  Modelled from the spec: the Laplacian-pyramid activations
and the per-band gain-control are deterministic per-image transforms,
supplied here as explicit function parameters; the divisive normalization of
NLPD (division by `sigma + conv(|activation|, filt, padding=2)`) is embedded
from `normalized_laplacian_pyramid` itself, which is in the sources. -/

/-- `F.conv2d(x, filt, padding=2)` with a 5×5 kernel (same-size output,
zero padding), at output pixel `(i, j)` of an `h × w` input. -/
def conv5Pad2 (h w : ℕ) (filt img : ℕ → ℕ → ℚ) (i j : ℕ) : ℚ :=
  ∑ p ∈ Finset.range 5, ∑ q ∈ Finset.range 5,
    filt p q *
      (if 2 ≤ i + p ∧ i + p < h + 2 ∧ 2 ≤ j + q ∧ j + q < w + 2 then
        img (i + p - 2) (j + q - 2)
      else 0)

/-- One scale of `normalized_laplacian_pyramid`:
`laplacian_activations[s] / (sigmas[s] + conv2d(|laplacian_activations[s]|, filt[s], padding=2))`.
`lap` (the `LaplacianPyramid` forward), its per-scale sizes, the filters and
the sigmas are modelled from the spec as parameters. -/
def normalizedLaplacianPyramid (lap : ℕ → (ℕ → ℕ → ℚ) → (ℕ → ℕ → ℚ))
    (lapH lapW : ℕ → ℕ) (filts : ℕ → ℕ → ℕ → ℚ) (sigmas : ℕ → ℚ)
    (img : ℕ → ℕ → ℚ) (s : ℕ) : ℕ → ℕ → ℚ :=
  fun i j =>
    lap s img i j /
      (sigmas s +
        conv5Pad2 (lapH s) (lapW s) (filts s) (fun a b => |lap s img a b|) i j)

/-- The stabilizer `epsilon = 1e-10` added before the square root in both
`nlpd` and `nspd`. -/
def distEpsilon : ℚ := 1 / 10 ^ 10

/-- The event that some divisive-normalization denominator of
`normalized_laplacian_pyramid` vanishes on `img`: at such a pixel torch
divides by zero and the activation is non-finite (NaN or ±inf), which then
propagates through difference, mean, sqrt and the final stack/mean. -/
def nlpdDenomVanishes (lap : ℕ → (ℕ → ℕ → ℚ) → (ℕ → ℕ → ℚ))
    (lapH lapW : ℕ → ℕ) (filts : ℕ → ℕ → ℕ → ℚ) (sigmas : ℕ → ℚ)
    (img : ℕ → ℕ → ℚ) : Bool :=
  decide (∃ s ∈ Finset.range 6, ∃ i ∈ Finset.range (lapH s),
    ∃ j ∈ Finset.range (lapW s),
      sigmas s +
        conv5Pad2 (lapH s) (lapW s) (filts s)
          (fun a b => |lap s img a b|) i j = 0)

/-- `nlpd`: the mean over the six scales of
`sqrt(mean((y1[s] - y2[s]) ** 2) + epsilon)`.  The float `torch.sqrt` is kept
as an explicit function parameter `sqrtFn`.  The result is `none` when a
normalization denominator vanishes on either input (the float result is then
non-finite: NaN/inf propagates through every later step), and otherwise the
exact value. -/
def nlpd (sqrtFn : ℚ → ℚ) (lap : ℕ → (ℕ → ℕ → ℚ) → (ℕ → ℕ → ℚ))
    (lapH lapW : ℕ → ℕ) (filts : ℕ → ℕ → ℕ → ℚ) (sigmas : ℕ → ℚ)
    (img1 img2 : ℕ → ℕ → ℚ) : Option ℚ :=
  if nlpdDenomVanishes lap lapH lapW filts sigmas img1 ||
      nlpdDenomVanishes lap lapH lapW filts sigmas img2 then none
  else
    some
      ((∑ s ∈ Finset.range 6,
          sqrtFn
            (meanOverMap (lapH s) (lapW s)
              (fun i j =>
                (normalizedLaplacianPyramid lap lapH lapW filts sigmas img1 s i j -
                  normalizedLaplacianPyramid lap lapH lapW filts sigmas img2 s i j) ^ 2) +
              distEpsilon)) / 6)

/-- The keys of `normalized_steerable_pyramid`'s output, in order: the keys
of a full 5-scale 4-orientation forward call, with `residual_highpass`
skipped (`continue`) and `residual_lowpass` kept. -/
def nspdKeys : List PyrKey :=
  (allPyrKeys 5 4).filter (fun k => k ≠ PyrKey.residualHighpass)

/-- `normalized_steerable_pyramid`: `residual_lowpass` is passed through
unnormalized, every band goes through `local_gain_control` with its per-key
sigma.  The pyramid forward (an FFT computation) and the gain control
(not among the provided sources) are deterministic per-image transforms,
supplied as parameters `spyrFwd` and `lgc`. -/
def normalizedSteerablePyramid (spyrFwd : (ℕ → ℕ → ℚ) → PyrKey → (ℕ → ℕ → ℚ))
    (lgc : PyrKey → (ℕ → ℕ → ℚ) → (ℕ → ℕ → ℚ)) (img : ℕ → ℕ → ℚ)
    (k : PyrKey) : ℕ → ℕ → ℚ :=
  if k = PyrKey.residualLowpass then spyrFwd img k else lgc k (spyrFwd img k)

/-- The event that the denominator `y1^2 + y2^2` of `nspd`'s
`residual_lowpass` term vanishes at some pixel of the band: there torch
computes `0/0 = NaN` (or `c/0 = ±inf`), so the whole metric value is
non-finite.  Because `residual_lowpass` is passed through *unnormalized*,
this happens in particular whenever both images have an identically zero
lowpass band (e.g. the zero image, since the pyramid forward is linear). -/
def nspdLowpassDenomVanishes (spyrFwd : (ℕ → ℕ → ℚ) → PyrKey → (ℕ → ℕ → ℚ))
    (lgc : PyrKey → (ℕ → ℕ → ℚ) → (ℕ → ℕ → ℚ)) (sizes : PyrKey → ℕ × ℕ)
    (img1 img2 : ℕ → ℕ → ℚ) : Bool :=
  decide (∃ i ∈ Finset.range (sizes PyrKey.residualLowpass).1,
    ∃ j ∈ Finset.range (sizes PyrKey.residualLowpass).2,
      (normalizedSteerablePyramid spyrFwd lgc img1 PyrKey.residualLowpass i j) ^ 2 +
        (normalizedSteerablePyramid spyrFwd lgc img2 PyrKey.residualLowpass i j) ^ 2
        = 0)

/-- `nspd`: for `residual_lowpass` the variance-normalized squared difference
`(y1-y2)^2 / (y1^2 + y2^2)` is averaged, for every band the plain squared
difference; each scale contributes `sqrt(mean + epsilon)` and the result is
the mean over all keys.  The result is `none` when the lowpass denominator
vanishes at some pixel (the float result is then non-finite: `0/0 = NaN` or
`c/0 = ±inf` propagates through mean, sqrt and the final mean), and
otherwise the exact value. -/
def nspd (sqrtFn : ℚ → ℚ) (spyrFwd : (ℕ → ℕ → ℚ) → PyrKey → (ℕ → ℕ → ℚ))
    (lgc : PyrKey → (ℕ → ℕ → ℚ) → (ℕ → ℕ → ℚ)) (sizes : PyrKey → ℕ × ℕ)
    (img1 img2 : ℕ → ℕ → ℚ) : Option ℚ :=
  if nspdLowpassDenomVanishes spyrFwd lgc sizes img1 img2 then none
  else
    some (((nspdKeys.map (fun k =>
      if k = PyrKey.residualLowpass then
        sqrtFn
          (meanOverMap (sizes k).1 (sizes k).2
            (fun i j =>
              (normalizedSteerablePyramid spyrFwd lgc img1 k i j -
                  normalizedSteerablePyramid spyrFwd lgc img2 k i j) ^ 2 /
                ((normalizedSteerablePyramid spyrFwd lgc img1 k i j) ^ 2 +
                  (normalizedSteerablePyramid spyrFwd lgc img2 k i j) ^ 2)) +
            distEpsilon)
      else
        sqrtFn
          (meanOverMap (sizes k).1 (sizes k).2
            (fun i j =>
              (normalizedSteerablePyramid spyrFwd lgc img1 k i j -
                normalizedSteerablePyramid spyrFwd lgc img2 k i j) ^ 2) +
            distEpsilon))).sum) / (nspdKeys.length : ℚ))

/-! ### Key-order and validation lemmas -/

lemma mem_spf_highpass (S : ℕ) : ScaleId.residualHighpass ∈ spfScalesAttr S := by
  simp [spfScalesAttr]

lemma mem_spf_lowpass (S : ℕ) : ScaleId.residualLowpass ∈ spfScalesAttr S := by
  simp [spfScalesAttr]

lemma mem_spf_scale {S i : ℕ} (h : i < S) : ScaleId.scale i ∈ spfScalesAttr S := by
  unfold spfScalesAttr
  apply List.mem_append_left
  apply List.mem_append_right
  rw [List.mem_map]
  exact ⟨i, List.mem_reverse.mpr (List.mem_range.mpr h), rfl⟩

/-- **C3.** A forward call that requests all scales (either via the default
empty list or by listing every scale identifier) inserts its keys in the
order: `residual_highpass` first, then `(scale, orientation)` with scale
from `0` (finest) to `num_scales - 1` and orientation from `0` to
`num_orientations - 1` within each scale, then `residual_lowpass` last; in
particular a 3-scale, 4-orientation pyramid produces `3 * 4 + 2 = 14` keys. -/
theorem forward_all_scales_keys (S No : ℕ) (scales : List ScaleId)
    (hall : scales = [] ∨ ∀ s ∈ spfScalesAttr S, s ∈ scales) :
    forwardKeyList S No scales = allPyrKeys S No ∧
      (allPyrKeys 3 4).length = 3 * 4 + 2 := by
  constructor
  · have hmem : ∀ s ∈ spfScalesAttr S,
        s ∈ (if scales = [] then spfScalesAttr S else scales) := by
      intro s hs
      rcases hall with h | h
      · rw [if_pos h]; exact hs
      · by_cases he : scales = []
        · rw [if_pos he]; exact hs
        · rw [if_neg he]; exact h s hs
    simp only [forwardKeyList, allPyrKeys]
    rw [if_pos (hmem _ (mem_spf_highpass S)), if_pos (hmem _ (mem_spf_lowpass S)),
      List.map_congr_left (fun i hi =>
        if_pos (hmem _ (mem_spf_scale (List.mem_range.mp hi))))]
  · decide

/-- Witness for `forward_all_scales_keys` at `scales = []`, `S = 3`, `No = 4`. -/
theorem forward_all_scales_keys_witness :
    forwardKeyList 3 4 [] = allPyrKeys 3 4 ∧ (allPyrKeys 3 4).length = 3 * 4 + 2 :=
  forward_all_scales_keys 3 4 [] (Or.inl rfl)

lemma reconRequiredKeys_eq (S No : ℕ) :
    reconRequiredKeys S No =
      [PyrKey.residualLowpass] ++
        ((List.range S).reverse.map
          (fun i => (List.range No).map (PyrKey.band i))).flatten ++
        [PyrKey.residualHighpass] := by
  unfold reconRequiredKeys spfScalesAttr
  rw [List.map_append, List.map_append, List.flatten_append, List.flatten_append,
    List.map_map]
  rfl

lemma mem_band_flatten (S No : ℕ) (k : PyrKey) :
    k ∈ ((List.range S).map
        (fun i => (List.range No).map (PyrKey.band i))).flatten ↔
      ∃ i < S, ∃ b < No, k = PyrKey.band i b := by
  constructor
  · intro hk
    rcases List.mem_flatten.mp hk with ⟨l, hl, hkl⟩
    rcases List.mem_map.mp hl with ⟨i, hi, rfl⟩
    rcases List.mem_map.mp hkl with ⟨b, hb, rfl⟩
    exact ⟨i, List.mem_range.mp hi, b, List.mem_range.mp hb, rfl⟩
  · rintro ⟨i, hi, b, hb, rfl⟩
    exact List.mem_flatten.mpr
      ⟨_, List.mem_map.mpr ⟨i, List.mem_range.mpr hi, rfl⟩,
        List.mem_map.mpr ⟨b, List.mem_range.mpr hb, rfl⟩⟩

lemma mem_band_flatten_rev (S No : ℕ) (k : PyrKey) :
    k ∈ ((List.range S).reverse.map
        (fun i => (List.range No).map (PyrKey.band i))).flatten ↔
      ∃ i < S, ∃ b < No, k = PyrKey.band i b := by
  constructor
  · intro hk
    rcases List.mem_flatten.mp hk with ⟨l, hl, hkl⟩
    rcases List.mem_map.mp hl with ⟨i, hi, rfl⟩
    rcases List.mem_map.mp hkl with ⟨b, hb, rfl⟩
    exact ⟨i, List.mem_range.mp (List.mem_reverse.mp hi), b,
      List.mem_range.mp hb, rfl⟩
  · rintro ⟨i, hi, b, hb, rfl⟩
    exact List.mem_flatten.mpr
      ⟨_, List.mem_map.mpr ⟨i, List.mem_reverse.mpr (List.mem_range.mpr hi), rfl⟩,
        List.mem_map.mpr ⟨b, List.mem_range.mpr hb, rfl⟩⟩

lemma mem_reconRequiredKeys_iff (S No : ℕ) (k : PyrKey) :
    k ∈ reconRequiredKeys S No ↔ k ∈ allPyrKeys S No := by
  rw [reconRequiredKeys_eq]
  cases k with
  | band s b =>
      simp [allPyrKeys, mem_band_flatten, mem_band_flatten_rev]
  | residualHighpass => simp [allPyrKeys, mem_band_flatten, mem_band_flatten_rev]
  | residualLowpass => simp [allPyrKeys, mem_band_flatten, mem_band_flatten_rev]

lemma reconPyrCheckOk_iff (S No : ℕ) (ck : List PyrKey) :
    reconPyrCheckOk S No ck = true ↔ ∀ k ∈ allPyrKeys S No, k ∈ ck := by
  unfold reconPyrCheckOk
  rw [List.all_eq_true]
  constructor
  · intro hall k hk
    simpa using hall k ((mem_reconRequiredKeys_iff S No k).mpr hk)
  · intro hall k hk
    simpa using hall k ((mem_reconRequiredKeys_iff S No k).mp hk)

/-- **C4.** `recon_pyr` raises exactly when the coefficient mapping is
missing some key of a full forward call (some `(scale, orientation)` with
`scale < num_scales`, `orientation < num_orientations`, or a residual key),
and it does so for every requested `levels`/`bands` selection: the guard
runs before any reconstruction computation and ignores the selection. -/
theorem recon_pyr_requires_full_forward (S No : ℕ) (coeffKeys : List PyrKey)
    (levels bands : List ℕ) :
    (reconPyrGate S No coeffKeys levels bands).isOk = false ↔
      ∃ k ∈ allPyrKeys S No, k ∉ coeffKeys := by
  unfold reconPyrGate
  by_cases hc : reconPyrCheckOk S No coeffKeys
  · rw [if_pos hc]
    have hall := (reconPyrCheckOk_iff S No coeffKeys).mp hc
    simp only [Except.isOk, Except.toBool]
    constructor
    · intro h; cases h
    · rintro ⟨k, hk, hnk⟩
      exact absurd (hall k hk) hnk
  · rw [if_neg hc]
    have hmiss : ¬∀ k ∈ allPyrKeys S No, k ∈ coeffKeys := fun hall =>
      hc ((reconPyrCheckOk_iff S No coeffKeys).mpr hall)
    push_neg at hmiss
    simp only [Except.isOk, Except.toBool]
    exact ⟨fun _ => hmiss, fun _ => by trivial⟩

/-- **C9.** Constructor parameter policy: with an in-range requested height,
construction succeeds for every `order` and `twidth`, with out-of-range
`order` clamped into `[1, 15]` under a warning and non-positive `twidth`
reset to `1` under a warning; a requested height exceeding
`floor(log2(min(H, W))) - 2` raises. -/
theorem spf_init_param_policy (h w : ℕ) (height order twidth : ℤ) :
    ((spfInit h w (some height) order twidth).isOk = true ↔
      height ≤ spfMaxHt h w) ∧
    (∀ cfg, spfInit h w (some height) order twidth = Except.ok cfg →
      (1 ≤ cfg.order ∧ cfg.order ≤ 15) ∧
      ((order > 15 ∨ order ≤ 0) →
        cfg.order = min (max order 1) 15 ∧ cfg.warnedOrder = true) ∧
      (twidth ≤ 0 → cfg.twidth = 1 ∧ cfg.warnedTwidth = true)) := by
  simp only [spfInit]
  by_cases hht : height > spfMaxHt h w
  · rw [if_pos hht]
    constructor
    · simp only [Except.isOk, Except.toBool]
      constructor
      · intro hfalse; cases hfalse
      · intro hle; omega
    · intro cfg hcfg; cases hcfg
  · rw [if_neg hht]
    constructor
    · simp only [Except.isOk, Except.toBool]
      constructor
      · intro _; omega
      · intro _; trivial
    · intro cfg hcfg
      have hc : cfg = spfValidated order twidth height := by cases hcfg; rfl
      subst hc
      unfold spfValidated
      refine ⟨?_, ?_, ?_⟩
      · by_cases hor : order > 15 ∨ order ≤ 0
        · simp only [if_pos hor]; omega
        · simp only [if_neg hor]; omega
      · intro hor
        simp only [if_pos hor]
        exact ⟨by trivial, decide_eq_true hor⟩
      · intro htw
        simp only [if_pos htw]
        exact ⟨by trivial, decide_eq_true htw⟩

/-- Witness for `spf_init_param_policy` at a `64 × 64` image (`max_ht = 4`),
requested height `3`, out-of-range `order = 20` and `twidth = 0`. -/
theorem spf_init_param_policy_witness :
    ((spfInit 64 64 (some 3) 20 0).isOk = true ↔ (3 : ℤ) ≤ spfMaxHt 64 64) ∧
    (∀ cfg, spfInit 64 64 (some 3) 20 0 = Except.ok cfg →
      (1 ≤ cfg.order ∧ cfg.order ≤ 15) ∧
      (((20 : ℤ) > 15 ∨ (20 : ℤ) ≤ 0) →
        cfg.order = min (max 20 1) 15 ∧ cfg.warnedOrder = true) ∧
      ((0 : ℤ) ≤ 0 → cfg.twidth = 1 ∧ cfg.warnedTwidth = true)) :=
  spf_init_param_policy 64 64 3 20 0

/-! ### Tensor ↔ pyramid conversion (C8) -/

lemma convertPyrToTensor_structured {α : Type} (vh vl : List α)
    (mid : List (PyrKey × List α))
    (hmid : ∀ kv ∈ mid, isResidualKey kv.1 = false) :
    convertPyrToTensor
        ((PyrKey.residualHighpass, vh) :: (mid ++ [(PyrKey.residualLowpass, vl)])) =
      vh ++ (mid.map Prod.snd).flatten ++ vl := by
  have hfilt_resid :
      ((PyrKey.residualHighpass, vh) ::
          (mid ++ [(PyrKey.residualLowpass, vl)])).filter
        (fun kv => isResidualKey kv.1) =
      [(PyrKey.residualHighpass, vh), (PyrKey.residualLowpass, vl)] := by
    rw [List.filter_cons_of_pos (by rfl), List.filter_append,
      List.filter_eq_nil_iff.mpr (by
        intro kv hkv
        simp [hmid kv hkv])]
    rfl
  have hfilt_band :
      ((PyrKey.residualHighpass, vh) ::
          (mid ++ [(PyrKey.residualLowpass, vl)])).filter
        (fun kv => !isResidualKey kv.1) = mid := by
    rw [List.filter_cons_of_neg (by simp [isResidualKey]), List.filter_append,
      List.filter_eq_self.mpr (by
        intro kv hkv
        simp [hmid kv hkv])]
    simp [isResidualKey]
  unfold convertPyrToTensor
  rw [hfilt_resid, hfilt_band]
  by_cases hm : mid = []
  · subst hm; simp
  · have hlen : 0 < (mid.map Prod.snd).length := by
      simpa [List.length_map, List.length_pos] using hm
    simp only [List.map_cons, List.map_nil, hlen, if_pos hlen]
    rfl

lemma convertTensorToPyrGo_spec {α : Type} (l : List (PyrKey × List α))
    (pre : List α) (hch : ∀ kv ∈ l, kv.2.length = 1) :
    convertTensorToPyrGo (pre ++ (l.map Prod.snd).flatten) pre.length
      (l.map Prod.fst) = l := by
  induction l generalizing pre with
  | nil => rfl
  | cons kv rest ih =>
      obtain ⟨k, v⟩ := kv
      obtain ⟨a, rfl⟩ : ∃ a, v = [a] :=
        List.length_eq_one.mp (hch (k, v) (List.mem_cons_self _ _))
      simp only [List.map_cons, List.flatten_cons, convertTensorToPyrGo]
      have hd : ((pre ++ ([a] ++ (rest.map Prod.snd).flatten)).drop
          pre.length).take 1 = [a] := by
        rw [List.drop_left' rfl]
        rfl
      have ht : convertTensorToPyrGo
          (pre ++ ([a] ++ (rest.map Prod.snd).flatten)) (pre.length + 1)
          (rest.map Prod.fst) = rest := by
        have hih := ih (pre ++ [a])
          (fun kv hkv => hch kv (List.mem_cons_of_mem _ hkv))
        rw [List.length_append, List.length_singleton] at hih
        rw [show pre ++ ([a] ++ (rest.map Prod.snd).flatten)
              = (pre ++ [a]) ++ (rest.map Prod.snd).flatten by simp]
        exact hih
      rw [hd, ht]

lemma convertTensorToPyr_flatten {α : Type} (pyr : List (PyrKey × List α))
    (hch : ∀ kv ∈ pyr, kv.2.length = 1) :
    convertTensorToPyr (pyr.map Prod.fst) ((pyr.map Prod.snd).flatten) = pyr := by
  have := convertTensorToPyrGo_spec pyr [] hch
  simpa [convertTensorToPyr] using this

lemma split_key_structure {α : Type} (l : List (PyrKey × List α))
    (bk : List PyrKey) (kl : PyrKey) (h : l.map Prod.fst = bk ++ [kl]) :
    ∃ mid last, l = mid ++ [last] ∧ mid.map Prod.fst = bk ∧ last.1 = kl := by
  induction l generalizing bk with
  | nil =>
      exfalso
      have := congrArg List.length h
      simp at this
  | cons kv rest ih =>
      cases bk with
      | nil =>
          cases rest with
          | nil =>
              refine ⟨[], kv, by simp, rfl, ?_⟩
              simpa using h
          | cons r rs =>
              exfalso
              have := congrArg List.length h
              simp at this
      | cons b bs =>
          rw [List.map_cons, List.cons_append, List.cons.injEq] at h
          obtain ⟨mid, last, rfl, hmid, hlast⟩ := ih bs h.2
          exact ⟨kv :: mid, last, by simp, by simp [h.1, hmid], hlast⟩

lemma allPyrKeys_band_not_residual (S No : ℕ) (k : PyrKey)
    (hk : k ∈ ((List.range S).map
        (fun i => (List.range No).map (PyrKey.band i))).flatten) :
    isResidualKey k = false := by
  obtain ⟨i, _, b, _, rfl⟩ := (mem_band_flatten S No k).mp hk
  rfl

/-- **C8 (amended).** For a full-forward coefficient mapping whose values
each hold a single channel (spatial stacking is modelled at the channel
level; a value is its list of channel planes), converting to the stacked
tensor and back is the identity: same keys, same order, equal values. -/
theorem convert_roundtrip_identity {α : Type} (S No : ℕ)
    (pyr : List (PyrKey × List α))
    (hkeys : pyr.map Prod.fst = allPyrKeys S No)
    (hch : ∀ kv ∈ pyr, kv.2.length = 1) :
    convertTensorToPyr (pyr.map Prod.fst) (convertPyrToTensor pyr) = pyr := by
  have hk2 : pyr.map Prod.fst
      = (PyrKey.residualHighpass ::
          ((List.range S).map
            (fun i => (List.range No).map (PyrKey.band i))).flatten)
        ++ [PyrKey.residualLowpass] := by
    simpa [allPyrKeys, List.append_assoc] using hkeys
  have hflat : convertPyrToTensor pyr = (pyr.map Prod.snd).flatten := by
    obtain ⟨mid2, last, rfl, hmid2, hlast⟩ := split_key_structure pyr _ _ hk2
    cases mid2 with
    | nil =>
        exfalso
        have := congrArg List.length hmid2
        simp at this
    | cons kv0 mid =>
        obtain ⟨k0, v0⟩ := kv0
        obtain ⟨kl, vl⟩ := last
        rw [List.map_cons] at hmid2
        injection hmid2 with h0 hmid
        have h0' : k0 = PyrKey.residualHighpass := h0
        subst h0'
        have hl' : kl = PyrKey.residualLowpass := hlast
        subst hl'
        have hmidres : ∀ kv ∈ mid, isResidualKey kv.1 = false := by
          intro kv hkv
          apply allPyrKeys_band_not_residual S No
          rw [← hmid]
          exact List.mem_map.mpr ⟨kv, hkv, rfl⟩
        rw [show ((PyrKey.residualHighpass, v0) :: mid)
              ++ [(PyrKey.residualLowpass, vl)]
            = (PyrKey.residualHighpass, v0)
              :: (mid ++ [(PyrKey.residualLowpass, vl)]) from rfl]
        rw [convertPyrToTensor_structured v0 vl mid hmidres]
        simp [List.append_assoc]
  rw [hflat]
  exact convertTensorToPyr_flatten pyr hch

/-- Witness for `convert_roundtrip_identity`: a single-channel mapping with
the key structure of a full 1-scale, 1-orientation forward call. -/
theorem convert_roundtrip_identity_witness :
    convertTensorToPyr
        ([(PyrKey.residualHighpass, [(10 : ℕ)]), (PyrKey.band 0 0, [20]),
          (PyrKey.residualLowpass, [30])].map Prod.fst)
        (convertPyrToTensor
          [(PyrKey.residualHighpass, [(10 : ℕ)]), (PyrKey.band 0 0, [20]),
            (PyrKey.residualLowpass, [30])]) =
      [(PyrKey.residualHighpass, [(10 : ℕ)]), (PyrKey.band 0 0, [20]),
        (PyrKey.residualLowpass, [30])] :=
  convert_roundtrip_identity 1 1 _ (by decide) (by decide)

/-- **C8 counterexample.** On a full-forward coefficient mapping with two
channels per value (a two-channel input image), the round trip is not the
identity: `convert_tensor_to_pyr` hands each key exactly one channel. -/
theorem convert_roundtrip_counterexample :
    ([(PyrKey.residualHighpass, [(10 : ℕ), 11]), (PyrKey.band 0 0, [20, 21]),
        (PyrKey.residualLowpass, [30, 31])].map Prod.fst = allPyrKeys 1 1) ∧
    convertTensorToPyr
        ([(PyrKey.residualHighpass, [(10 : ℕ), 11]), (PyrKey.band 0 0, [20, 21]),
          (PyrKey.residualLowpass, [30, 31])].map Prod.fst)
        (convertPyrToTensor
          [(PyrKey.residualHighpass, [(10 : ℕ), 11]), (PyrKey.band 0 0, [20, 21]),
            (PyrKey.residualLowpass, [30, 31])]) ≠
      [(PyrKey.residualHighpass, [(10 : ℕ), 11]), (PyrKey.band 0 0, [20, 21]),
        (PyrKey.residualLowpass, [30, 31])] := by
  constructor
  · decide
  · decide

/-! ### NLPD / NSPD self-distance (C7), MS-SSIM (C6, C10) -/

lemma meanOverMap_zero (oh ow : ℕ) (f : ℕ → ℕ → ℚ) (hf : ∀ i j, f i j = 0) :
    meanOverMap oh ow f = 0 := by
  unfold meanOverMap
  rw [Finset.sum_eq_zero (fun i _ => Finset.sum_eq_zero (fun j _ => hf i j))]
  exact zero_div _

lemma sum_map_const_list (l : List PyrKey) (c : ℚ) :
    (l.map (fun _ => c)).sum = l.length * c := by
  induction l with
  | nil => simp
  | cons a t ih => simp [ih]; ring

/-- **C7 (amended).** For every image `x` on which no divisive-normalization
denominator vanishes — for `nspd`, whose `residual_lowpass` band is nowhere
zero — `nlpd(x, x)` and `nspd(x, x)` are zero up to the stabilizer: every
per-scale difference vanishes identically, so each per-scale term is
`sqrt(epsilon)` and so is the mean over scales, for any (deterministic)
Laplacian pyramid, gain control, normalization parameters and any model of
the float `sqrt`.  Without that proviso the claim fails: at the zero image
the lowpass term divides `0` by `0` and the result is NaN, not `~0`. -/
theorem nlpd_nspd_self_distance (sqrtFn : ℚ → ℚ)
    (lap : ℕ → (ℕ → ℕ → ℚ) → (ℕ → ℕ → ℚ)) (lapH lapW : ℕ → ℕ)
    (filts : ℕ → ℕ → ℕ → ℚ) (sigmas : ℕ → ℚ)
    (spyrFwd : (ℕ → ℕ → ℚ) → PyrKey → (ℕ → ℕ → ℚ))
    (lgc : PyrKey → (ℕ → ℕ → ℚ) → (ℕ → ℕ → ℚ)) (sizes : PyrKey → ℕ × ℕ)
    (x : ℕ → ℕ → ℚ)
    (hnlp : ∀ s, s < 6 → ∀ i j, i < lapH s → j < lapW s →
      sigmas s + conv5Pad2 (lapH s) (lapW s) (filts s)
        (fun a b => |lap s x a b|) i j ≠ 0)
    (hlp : ∀ i j, i < (sizes PyrKey.residualLowpass).1 →
      j < (sizes PyrKey.residualLowpass).2 →
      spyrFwd x PyrKey.residualLowpass i j ≠ 0) :
    nlpd sqrtFn lap lapH lapW filts sigmas x x = some (sqrtFn distEpsilon) ∧
    nspd sqrtFn spyrFwd lgc sizes x x = some (sqrtFn distEpsilon) := by
  have hg1 : nlpdDenomVanishes lap lapH lapW filts sigmas x = false := by
    unfold nlpdDenomVanishes
    rw [decide_eq_false_iff_not]
    rintro ⟨s, hs, i, hi, j, hj, heq⟩
    exact hnlp s (Finset.mem_range.mp hs) i j (Finset.mem_range.mp hi)
      (Finset.mem_range.mp hj) heq
  have hg2 : nspdLowpassDenomVanishes spyrFwd lgc sizes x x = false := by
    unfold nspdLowpassDenomVanishes
    rw [decide_eq_false_iff_not]
    rintro ⟨i, hi, j, hj, heq⟩
    have hpass : normalizedSteerablePyramid spyrFwd lgc x PyrKey.residualLowpass
        = spyrFwd x PyrKey.residualLowpass := by
      unfold normalizedSteerablePyramid
      simp
    rw [hpass] at heq
    have hsq : (spyrFwd x PyrKey.residualLowpass i j) ^ 2 = 0 := by
      linarith [sq_nonneg (spyrFwd x PyrKey.residualLowpass i j)]
    exact hlp i j (Finset.mem_range.mp hi) (Finset.mem_range.mp hj)
      (sq_eq_zero_iff.mp hsq)
  constructor
  · unfold nlpd
    rw [hg1]
    rw [if_neg (by simp)]
    congr 1
    have hterm : ∀ s ∈ Finset.range 6,
        sqrtFn
          (meanOverMap (lapH s) (lapW s)
            (fun i j =>
              (normalizedLaplacianPyramid lap lapH lapW filts sigmas x s i j -
                normalizedLaplacianPyramid lap lapH lapW filts sigmas x s i j) ^ 2) +
            distEpsilon) = sqrtFn distEpsilon := by
      intro s _
      rw [meanOverMap_zero _ _ _ (fun i j => by
          rw [sub_self]
          exact zero_pow two_ne_zero), zero_add]
    rw [Finset.sum_congr rfl hterm, Finset.sum_const, Finset.card_range,
      nsmul_eq_mul]
    norm_num
  · unfold nspd
    rw [hg2]
    rw [if_neg (by simp)]
    congr 1
    have hbody : ∀ k : PyrKey,
        (if k = PyrKey.residualLowpass then
          sqrtFn
            (meanOverMap (sizes k).1 (sizes k).2
              (fun i j =>
                (normalizedSteerablePyramid spyrFwd lgc x k i j -
                    normalizedSteerablePyramid spyrFwd lgc x k i j) ^ 2 /
                  ((normalizedSteerablePyramid spyrFwd lgc x k i j) ^ 2 +
                    (normalizedSteerablePyramid spyrFwd lgc x k i j) ^ 2)) +
              distEpsilon)
        else
          sqrtFn
            (meanOverMap (sizes k).1 (sizes k).2
              (fun i j =>
                (normalizedSteerablePyramid spyrFwd lgc x k i j -
                  normalizedSteerablePyramid spyrFwd lgc x k i j) ^ 2) +
              distEpsilon)) = sqrtFn distEpsilon := by
      intro k
      by_cases hk : k = PyrKey.residualLowpass
      · rw [if_pos hk, meanOverMap_zero _ _ _ (fun i j => by
            rw [sub_self]
            simp), zero_add]
      · rw [if_neg hk, meanOverMap_zero _ _ _ (fun i j => by
            rw [sub_self]
            exact zero_pow two_ne_zero), zero_add]
    rw [List.map_congr_left (fun k _ => hbody k), sum_map_const_list]
    rw [show nspdKeys.length = 21 from by decide]
    norm_num

/-- Witness for `nlpd_nspd_self_distance`: zero Laplacian activations with
unit sigmas (denominators `1`), and a pyramid whose lowpass band is the
constant `1` (nowhere zero). -/
theorem nlpd_nspd_self_distance_witness :
    nlpd (fun q => q) (fun _ _ => fun _ _ => 0) (fun _ => 1) (fun _ => 1)
        (fun _ _ _ => 0) (fun _ => 1) (fun _ _ => 0) (fun _ _ => 0)
      = some ((fun q : ℚ => q) distEpsilon) ∧
    nspd (fun q => q) (fun _ _ => fun _ _ => 1) (fun _ f => f)
        (fun _ => (1, 1)) (fun _ _ => 0) (fun _ _ => 0)
      = some ((fun q : ℚ => q) distEpsilon) :=
  nlpd_nspd_self_distance (fun q => q) (fun _ _ => fun _ _ => 0) (fun _ => 1)
    (fun _ => 1) (fun _ _ _ => 0) (fun _ => 1) (fun _ _ => fun _ _ => 1)
    (fun _ f => f) (fun _ => (1, 1)) (fun _ _ => 0)
    (by
      intro s _ i j _ _
      norm_num [conv5Pad2])
    (by
      intro i j _ _
      norm_num)

/-- **C7 counterexample.** At the zero image, every pyramid coefficient is
zero (the forward transform is linear), so the unnormalized
`residual_lowpass` band is identically zero and `nspd`'s lowpass term
computes `0 / 0`: the metric value is NaN (`none`), not zero up to the
stabilizer — the claim fails as stated for this valid input. -/
theorem nspd_self_zero_image_counterexample :
    nspd (fun q => q) (fun _ _ => fun _ _ => 0) (fun _ f => f)
        (fun _ => (1, 1)) (fun _ _ => 0) (fun _ _ => 0) ≠
      some ((fun q : ℚ => q) distEpsilon) := by
  have hg : nspdLowpassDenomVanishes (fun _ _ => fun _ _ => 0) (fun _ f => f)
      (fun _ => (1, 1)) (fun _ _ => 0) (fun _ _ => 0) = true := by
    unfold nspdLowpassDenomVanishes
    apply decide_eq_true
    refine ⟨0, by simp, 0, by simp, ?_⟩
    norm_num [normalizedSteerablePyramid]
  unfold nspd
  rw [hg]
  simp

/-- **C10.** Every value `ms_ssim` produces is nonnegative: each factor is a
power of a relu-ed mean, so as long as the tensor power `**` sends
nonnegative bases to nonnegative values, the product is nonnegative for
every power-factor list and every pair of images. -/
theorem ms_ssim_nonneg (rpow : ℚ → ℚ → ℚ)
    (hrpow : ∀ x y : ℚ, 0 ≤ x → 0 ≤ rpow x y)
    (wgen : ℕ → ℕ → ℕ → ℚ) (d : ℚ) (pf : List ℚ) (h w : ℕ)
    (img1 img2 : ℕ → ℕ → ℚ) :
    0 ≤ msSsim rpow wgen d pf h w img1 img2 := by
  induction pf generalizing h w img1 img2 with
  | nil => norm_num [msSsim]
  | cons a rest ih =>
      cases rest with
      | nil =>
          rw [show msSsim rpow wgen d [a] h w img1 img2
              = rpow (reluQ (ssimUnweighted wgen d h w img1 img2)) a from rfl]
          exact hrpow _ _ (le_max_right _ _)
      | cons b t =>
          rw [show msSsim rpow wgen d (a :: b :: t) h w img1 img2
              = rpow (reluQ (csMeanVal wgen d h w img1 img2)) a *
                msSsim rpow wgen d (b :: t) (msDownSize h) (msDownSize w)
                  (msDownsample h w img1) (msDownsample h w img2) from rfl]
          exact mul_nonneg (hrpow _ _ (le_max_right _ _)) (ih _ _ _ _)

/-- Witness for `ms_ssim_nonneg` with `rpow` the first projection. -/
theorem ms_ssim_nonneg_witness :
    0 ≤ msSsim (fun x _ => x) (fun _ _ _ => 1) 1 [1] 1 1
        (fun _ _ => 0) (fun _ _ => 0) :=
  ms_ssim_nonneg (fun x _ => x) (fun _ _ hx => hx) (fun _ _ _ => 1) 1 [1] 1 1
    (fun _ _ => 0) (fun _ _ => 0)

/-- **C6 (amended).** With a single-element `power_factors` list `[a]`,
`ms_ssim` equals `relu` of `ssim`'s mean-map value raised to the power `a`;
when that mean is nonnegative the relu is the identity and `ms_ssim` equals
the mean raised to `a`, as the claim states. -/
theorem ms_ssim_single_power_factor (rpow : ℚ → ℚ → ℚ) (wgen : ℕ → ℕ → ℕ → ℚ)
    (d a : ℚ) (h w : ℕ) (img1 img2 : ℕ → ℕ → ℚ)
    (hm : 0 ≤ ssimUnweighted wgen d h w img1 img2) :
    msSsim rpow wgen d [a] h w img1 img2 =
      rpow (ssimUnweighted wgen d h w img1 img2) a := by
  rw [show msSsim rpow wgen d [a] h w img1 img2
      = rpow (reluQ (ssimUnweighted wgen d h w img1 img2)) a from rfl]
  rw [reluQ, max_eq_left hm]

/-- Witness for `ms_ssim_single_power_factor` on a pair of constant images
(mean SSIM map value `1 ≥ 0`). -/
theorem ms_ssim_single_power_factor_witness :
    msSsim (fun x _ => x) (fun _ _ _ => 1) 1 [1] 1 1
        (fun _ _ => 1) (fun _ _ => 1) =
      (fun x _ => x)
        (ssimUnweighted (fun _ _ _ => 1) 1 1 1 (fun _ _ => 1) (fun _ _ => 1))
        1 :=
  ms_ssim_single_power_factor (fun x _ => x) (fun _ _ _ => 1) 1 1 1 1
    (fun _ _ => 1) (fun _ _ => 1)
    (by
      norm_num [ssimUnweighted, meanOverMap, mapSsim, luminanceMap,
        contrastStructureMap, ssimSigmaSq, ssimSigma12, ssimC1, ssimC2,
        windowedAverage, realSize, convOutSize, Finset.sum_range_one])

/-- **C6 counterexample.** For the anti-correlated pair `1`, `-1` on a `1×1`
image (where the code's Gaussian window degenerates to the single weight 1)
and `power_factors = [1]` (`t ** 1 = t` modelled by the first projection),
`ms_ssim` returns `relu` of a negative mean, i.e. `0`, while the mean-map
value raised to the power `1` is negative: the claimed equality fails. -/
theorem ms_ssim_single_power_factor_counterexample :
    msSsim (fun x _ => x) (fun _ _ _ => 1) 1 [1] 1 1
        (fun _ _ => 1) (fun _ _ => -1) ≠
      (fun x _ => x)
        (ssimUnweighted (fun _ _ _ => 1) 1 1 1 (fun _ _ => 1) (fun _ _ => -1))
        1 := by
  have h1 : ssimUnweighted (fun _ _ _ => 1) 1 1 1 (fun _ _ => 1) (fun _ _ => -1)
      = -19999 / 20001 := by
    norm_num [ssimUnweighted, meanOverMap, mapSsim, luminanceMap,
      contrastStructureMap, ssimSigmaSq, ssimSigma12, ssimC1, ssimC2,
      windowedAverage, realSize, convOutSize, Finset.sum_range_one]
  rw [show msSsim (fun x _ => x) (fun _ _ _ => 1) 1 [1] 1 1
        (fun _ _ => 1) (fun _ _ => -1)
      = reluQ (ssimUnweighted (fun _ _ _ => 1) 1 1 1
          (fun _ _ => 1) (fun _ _ => -1)) from rfl]
  rw [h1, reluQ, max_eq_right (by norm_num : (-19999 / 20001 : ℚ) ≤ 0)]
  norm_num

/-! ### SSIM identity and bounds (C5)

The statistics at one output pixel are weighted first and second moments
with nonnegative weights summing to one, so the local variances are
nonnegative and the local covariance satisfies Cauchy-Schwarz; from these
the SSIM map is `1` on identical inputs and always lies in `[-1, 1]`, and
so does its mean. -/

lemma weighted_cauchy_schwarz {ι : Type*} (s : Finset ι) (W f g : ι → ℚ)
    (hw : ∀ i ∈ s, 0 ≤ W i) :
    (∑ i ∈ s, W i * (f i * g i)) ^ 2 ≤
      (∑ i ∈ s, W i * (f i * f i)) * (∑ i ∈ s, W i * (g i * g i)) := by
  set A := ∑ i ∈ s, W i * (f i * f i) with hA
  set B := ∑ i ∈ s, W i * (g i * g i) with hB
  set C := ∑ i ∈ s, W i * (f i * g i) with hC
  have hBnn : 0 ≤ B :=
    Finset.sum_nonneg fun i hi => mul_nonneg (hw i hi) (mul_self_nonneg _)
  have key : 0 ≤ B * (A * B - C ^ 2) := by
    have h1 : 0 ≤ ∑ i ∈ s, W i * (f i * B - g i * C) ^ 2 :=
      Finset.sum_nonneg fun i hi => mul_nonneg (hw i hi) (sq_nonneg _)
    have h2 : ∑ i ∈ s, W i * (f i * B - g i * C) ^ 2
        = B ^ 2 * A - 2 * B * C * C + C ^ 2 * B := by
      have e : ∀ i ∈ s, W i * (f i * B - g i * C) ^ 2
          = B ^ 2 * (W i * (f i * f i)) - 2 * B * C * (W i * (f i * g i))
            + C ^ 2 * (W i * (g i * g i)) := by
        intro i _; ring
      rw [Finset.sum_congr rfl e]
      rw [Finset.sum_add_distrib, Finset.sum_sub_distrib, ← Finset.mul_sum,
        ← Finset.mul_sum, ← Finset.mul_sum, ← hA, ← hB, ← hC]
    nlinarith [h1, h2]
  rcases eq_or_lt_of_le hBnn with hB0 | hB0
  · have hz : ∀ i ∈ s, W i * (g i * g i) = 0 :=
      (Finset.sum_eq_zero_iff_of_nonneg
        (fun i hi => mul_nonneg (hw i hi) (mul_self_nonneg _))).mp hB0.symm
    have hCz : C = 0 := by
      rw [hC]
      apply Finset.sum_eq_zero
      intro i hi
      rcases mul_eq_zero.mp (hz i hi) with hwz | hgz
      · rw [hwz, zero_mul]
      · rw [mul_self_eq_zero.mp hgz]; ring
    rw [hCz]
    simp [← hB0]
  · nlinarith [key, hB0]

lemma sum_w_centered {ι : Type*} (s : Finset ι) (W F G : ι → ℚ)
    (hsum : ∑ i ∈ s, W i = 1) :
    ∑ i ∈ s, W i * ((F i - ∑ j ∈ s, W j * F j) * (G i - ∑ j ∈ s, W j * G j)) =
      ∑ i ∈ s, W i * (F i * G i) -
        (∑ j ∈ s, W j * F j) * (∑ j ∈ s, W j * G j) := by
  set a := ∑ j ∈ s, W j * F j with ha
  set b := ∑ j ∈ s, W j * G j with hb
  have e : ∀ i ∈ s, W i * ((F i - a) * (G i - b))
      = W i * (F i * G i) - b * (W i * F i) - a * (W i * G i) + a * b * W i := by
    intro i _; ring
  rw [Finset.sum_congr rfl e]
  rw [Finset.sum_add_distrib, Finset.sum_sub_distrib, Finset.sum_sub_distrib,
    ← Finset.mul_sum, ← Finset.mul_sum, ← Finset.mul_sum, ← ha, ← hb, hsum]
  ring

lemma weighted_var_nonneg {ι : Type*} (s : Finset ι) (W F : ι → ℚ)
    (hw : ∀ i ∈ s, 0 ≤ W i) (hsum : ∑ i ∈ s, W i = 1) :
    0 ≤ ∑ i ∈ s, W i * (F i * F i) -
      (∑ i ∈ s, W i * F i) * (∑ i ∈ s, W i * F i) := by
  rw [← sum_w_centered s W F F hsum]
  exact Finset.sum_nonneg fun i hi => mul_nonneg (hw i hi) (mul_self_nonneg _)

lemma weighted_cov_sq_le {ι : Type*} (s : Finset ι) (W F G : ι → ℚ)
    (hw : ∀ i ∈ s, 0 ≤ W i) (hsum : ∑ i ∈ s, W i = 1) :
    (∑ i ∈ s, W i * (F i * G i) -
        (∑ i ∈ s, W i * F i) * (∑ i ∈ s, W i * G i)) ^ 2 ≤
      (∑ i ∈ s, W i * (F i * F i) -
          (∑ i ∈ s, W i * F i) * (∑ i ∈ s, W i * F i)) *
        (∑ i ∈ s, W i * (G i * G i) -
          (∑ i ∈ s, W i * G i) * (∑ i ∈ s, W i * G i)) := by
  have hcs := weighted_cauchy_schwarz s W
    (fun i => F i - ∑ j ∈ s, W j * F j) (fun i => G i - ∑ j ∈ s, W j * G j) hw
  calc (∑ i ∈ s, W i * (F i * G i) -
          (∑ i ∈ s, W i * F i) * (∑ i ∈ s, W i * G i)) ^ 2
      = (∑ i ∈ s, W i * ((F i - ∑ j ∈ s, W j * F j) *
          (G i - ∑ j ∈ s, W j * G j))) ^ 2 := by
        rw [sum_w_centered s W F G hsum]
    _ ≤ (∑ i ∈ s, W i * ((F i - ∑ j ∈ s, W j * F j) *
            (F i - ∑ j ∈ s, W j * F j))) *
          (∑ i ∈ s, W i * ((G i - ∑ j ∈ s, W j * G j) *
            (G i - ∑ j ∈ s, W j * G j))) := hcs
    _ = _ := by rw [sum_w_centered s W F F hsum, sum_w_centered s W G G hsum]

lemma sum_prod_eq (k : ℕ) (f : ℕ → ℕ → ℚ) :
    ∑ pq ∈ Finset.range k ×ˢ Finset.range k, f pq.1 pq.2
      = ∑ p ∈ Finset.range k, ∑ q ∈ Finset.range k, f p q := by
  rw [Finset.sum_product]

lemma ssim_moment_facts (k : ℕ) (win img1 img2 : ℕ → ℕ → ℚ) (i j : ℕ)
    (hpos : ∀ p q, p < k → q < k → 0 ≤ win p q)
    (hsum : ∑ p ∈ Finset.range k, ∑ q ∈ Finset.range k, win p q = 1) :
    0 ≤ ssimSigmaSq k win img1 i j ∧ 0 ≤ ssimSigmaSq k win img2 i j ∧
      ssimSigma12 k win img1 img2 i j ^ 2 ≤
        ssimSigmaSq k win img1 i j * ssimSigmaSq k win img2 i j := by
  have hW : ∀ pq ∈ Finset.range k ×ˢ Finset.range k, 0 ≤ win pq.1 pq.2 := by
    intro pq hpq
    rw [Finset.mem_product, Finset.mem_range, Finset.mem_range] at hpq
    exact hpos _ _ hpq.1 hpq.2
  have hWs : ∑ pq ∈ Finset.range k ×ˢ Finset.range k, win pq.1 pq.2 = 1 :=
    (sum_prod_eq k (fun p q => win p q)).trans hsum
  have eμ1 : windowedAverage k win img1 i j
      = ∑ pq ∈ Finset.range k ×ˢ Finset.range k,
          win pq.1 pq.2 * img1 (i + pq.1) (j + pq.2) :=
    (sum_prod_eq k (fun p q => win p q * img1 (i + p) (j + q))).symm
  have eμ2 : windowedAverage k win img2 i j
      = ∑ pq ∈ Finset.range k ×ˢ Finset.range k,
          win pq.1 pq.2 * img2 (i + pq.1) (j + pq.2) :=
    (sum_prod_eq k (fun p q => win p q * img2 (i + p) (j + q))).symm
  have e11 : windowedAverage k win (fun a b => img1 a b * img1 a b) i j
      = ∑ pq ∈ Finset.range k ×ˢ Finset.range k,
          win pq.1 pq.2 * (img1 (i + pq.1) (j + pq.2) * img1 (i + pq.1) (j + pq.2)) :=
    (sum_prod_eq k
      (fun p q => win p q * (img1 (i + p) (j + q) * img1 (i + p) (j + q)))).symm
  have e22 : windowedAverage k win (fun a b => img2 a b * img2 a b) i j
      = ∑ pq ∈ Finset.range k ×ˢ Finset.range k,
          win pq.1 pq.2 * (img2 (i + pq.1) (j + pq.2) * img2 (i + pq.1) (j + pq.2)) :=
    (sum_prod_eq k
      (fun p q => win p q * (img2 (i + p) (j + q) * img2 (i + p) (j + q)))).symm
  have e12 : windowedAverage k win (fun a b => img1 a b * img2 a b) i j
      = ∑ pq ∈ Finset.range k ×ˢ Finset.range k,
          win pq.1 pq.2 * (img1 (i + pq.1) (j + pq.2) * img2 (i + pq.1) (j + pq.2)) :=
    (sum_prod_eq k
      (fun p q => win p q * (img1 (i + p) (j + q) * img2 (i + p) (j + q)))).symm
  have hvar1 : ssimSigmaSq k win img1 i j
      = ∑ pq ∈ Finset.range k ×ˢ Finset.range k,
          win pq.1 pq.2 * (img1 (i + pq.1) (j + pq.2) * img1 (i + pq.1) (j + pq.2))
        - (∑ pq ∈ Finset.range k ×ˢ Finset.range k,
            win pq.1 pq.2 * img1 (i + pq.1) (j + pq.2)) *
          (∑ pq ∈ Finset.range k ×ˢ Finset.range k,
            win pq.1 pq.2 * img1 (i + pq.1) (j + pq.2)) := by
    unfold ssimSigmaSq
    rw [e11, eμ1]
    ring
  have hvar2 : ssimSigmaSq k win img2 i j
      = ∑ pq ∈ Finset.range k ×ˢ Finset.range k,
          win pq.1 pq.2 * (img2 (i + pq.1) (j + pq.2) * img2 (i + pq.1) (j + pq.2))
        - (∑ pq ∈ Finset.range k ×ˢ Finset.range k,
            win pq.1 pq.2 * img2 (i + pq.1) (j + pq.2)) *
          (∑ pq ∈ Finset.range k ×ˢ Finset.range k,
            win pq.1 pq.2 * img2 (i + pq.1) (j + pq.2)) := by
    unfold ssimSigmaSq
    rw [e22, eμ2]
    ring
  have hcov : ssimSigma12 k win img1 img2 i j
      = ∑ pq ∈ Finset.range k ×ˢ Finset.range k,
          win pq.1 pq.2 * (img1 (i + pq.1) (j + pq.2) * img2 (i + pq.1) (j + pq.2))
        - (∑ pq ∈ Finset.range k ×ˢ Finset.range k,
            win pq.1 pq.2 * img1 (i + pq.1) (j + pq.2)) *
          (∑ pq ∈ Finset.range k ×ˢ Finset.range k,
            win pq.1 pq.2 * img2 (i + pq.1) (j + pq.2)) := by
    unfold ssimSigma12
    rw [e12, eμ1, eμ2]
  refine ⟨?_, ?_, ?_⟩
  · rw [hvar1]
    exact weighted_var_nonneg _ _ _ hW hWs
  · rw [hvar2]
    exact weighted_var_nonneg _ _ _ hW hWs
  · rw [hcov, hvar1, hvar2]
    exact weighted_cov_sq_le _ _ _ _ hW hWs

lemma ssimC1_pos (d : ℚ) (hd : d ≠ 0) : 0 < ssimC1 d := by
  have hne : (1 / 100 : ℚ) * d ≠ 0 := mul_ne_zero (by norm_num) hd
  exact lt_of_le_of_ne (sq_nonneg _) (Ne.symm (pow_ne_zero 2 hne))

lemma ssimC2_pos (d : ℚ) (hd : d ≠ 0) : 0 < ssimC2 d := by
  have hne : (3 / 100 : ℚ) * d ≠ 0 := mul_ne_zero (by norm_num) hd
  exact lt_of_le_of_ne (sq_nonneg _) (Ne.symm (pow_ne_zero 2 hne))

lemma two_mul_le_add_of_sq_le (A B C : ℚ) (hA : 0 ≤ A) (hB : 0 ≤ B)
    (hC : C ^ 2 ≤ A * B) : 2 * C ≤ A + B := by
  have h4 : 4 * C ^ 2 ≤ (A + B) ^ 2 := by nlinarith [sq_nonneg (A - B)]
  rcases le_or_lt C 0 with hC0 | hC0
  · linarith
  · have hAB : 0 ≤ A + B := by linarith
    nlinarith [h4, hC0, hAB]

lemma luminance_term_bounds (c1 a b : ℚ) (hc1 : 0 < c1) :
    -1 ≤ (2 * (a * b) + c1) / (a ^ 2 + b ^ 2 + c1) ∧
      (2 * (a * b) + c1) / (a ^ 2 + b ^ 2 + c1) ≤ 1 := by
  have hden : 0 < a ^ 2 + b ^ 2 + c1 := by nlinarith [sq_nonneg a, sq_nonneg b]
  constructor
  · rw [le_div_iff₀ hden]
    nlinarith [sq_nonneg (a + b)]
  · rw [div_le_one hden]
    nlinarith [sq_nonneg (a - b)]

lemma contrast_term_bounds (c2 A B C : ℚ) (hc2 : 0 < c2) (hA : 0 ≤ A)
    (hB : 0 ≤ B) (hC : C ^ 2 ≤ A * B) :
    -1 ≤ (2 * C + c2) / (A + B + c2) ∧ (2 * C + c2) / (A + B + c2) ≤ 1 := by
  have hden : 0 < A + B + c2 := by linarith
  have hup : 2 * C ≤ A + B := two_mul_le_add_of_sq_le A B C hA hB hC
  have hlo : 2 * -C ≤ A + B := by
    apply two_mul_le_add_of_sq_le A B (-C) hA hB
    nlinarith [hC]
  constructor
  · rw [le_div_iff₀ hden]
    linarith
  · rw [div_le_one hden]
    linarith

lemma mul_mem_unit_interval (a b : ℚ) (ha1 : -1 ≤ a) (ha2 : a ≤ 1)
    (hb1 : -1 ≤ b) (hb2 : b ≤ 1) : -1 ≤ a * b ∧ a * b ≤ 1 :=
  ⟨by nlinarith, by nlinarith⟩

lemma mapSsim_self_one (k : ℕ) (win : ℕ → ℕ → ℚ) (d : ℚ) (x : ℕ → ℕ → ℚ)
    (i j : ℕ) (hd : d ≠ 0)
    (hpos : ∀ p q, p < k → q < k → 0 ≤ win p q)
    (hsum : ∑ p ∈ Finset.range k, ∑ q ∈ Finset.range k, win p q = 1) :
    mapSsim k win d x x i j = 1 := by
  have hc1 := ssimC1_pos d hd
  have hc2 := ssimC2_pos d hd
  obtain ⟨hA, -, -⟩ := ssim_moment_facts k win x x i j hpos hsum
  unfold mapSsim luminanceMap contrastStructureMap
  have hσ : ssimSigma12 k win x x i j = ssimSigmaSq k win x i j := by
    unfold ssimSigma12 ssimSigmaSq
    ring
  rw [hσ]
  have hlden : (0 : ℚ) < (windowedAverage k win x i j) ^ 2 +
      (windowedAverage k win x i j) ^ 2 + ssimC1 d := by
    nlinarith [sq_nonneg (windowedAverage k win x i j)]
  have hcden : (0 : ℚ) < ssimSigmaSq k win x i j + ssimSigmaSq k win x i j +
      ssimC2 d := by linarith
  rw [show 2 * (windowedAverage k win x i j * windowedAverage k win x i j) +
        ssimC1 d
      = (windowedAverage k win x i j) ^ 2 + (windowedAverage k win x i j) ^ 2 +
        ssimC1 d by ring]
  rw [div_self hlden.ne']
  rw [show 2 * ssimSigmaSq k win x i j + ssimC2 d
      = ssimSigmaSq k win x i j + ssimSigmaSq k win x i j + ssimC2 d by ring]
  rw [div_self hcden.ne']
  norm_num

lemma mapSsim_bounds (k : ℕ) (win : ℕ → ℕ → ℚ) (d : ℚ)
    (img1 img2 : ℕ → ℕ → ℚ) (i j : ℕ) (hd : d ≠ 0)
    (hpos : ∀ p q, p < k → q < k → 0 ≤ win p q)
    (hsum : ∑ p ∈ Finset.range k, ∑ q ∈ Finset.range k, win p q = 1) :
    -1 ≤ mapSsim k win d img1 img2 i j ∧ mapSsim k win d img1 img2 i j ≤ 1 := by
  have hc1 := ssimC1_pos d hd
  have hc2 := ssimC2_pos d hd
  obtain ⟨hA, hB, hC⟩ := ssim_moment_facts k win img1 img2 i j hpos hsum
  have hlum := luminance_term_bounds (ssimC1 d)
    (windowedAverage k win img1 i j) (windowedAverage k win img2 i j) hc1
  have hcs := contrast_term_bounds (ssimC2 d) (ssimSigmaSq k win img1 i j)
    (ssimSigmaSq k win img2 i j) (ssimSigma12 k win img1 img2 i j) hc2 hA hB hC
  unfold mapSsim luminanceMap contrastStructureMap
  exact mul_mem_unit_interval _ _ hlum.1 hlum.2 hcs.1 hcs.2

lemma meanOverMap_const_one (oh ow : ℕ) (f : ℕ → ℕ → ℚ) (h0 : 0 < oh)
    (h0' : 0 < ow) (hf : ∀ i j, f i j = 1) : meanOverMap oh ow f = 1 := by
  unfold meanOverMap
  have hs : ∑ i ∈ Finset.range oh, ∑ j ∈ Finset.range ow, f i j
      = ((oh * ow : ℕ) : ℚ) := by
    rw [Finset.sum_congr rfl fun i _ => Finset.sum_congr rfl fun j _ => hf i j]
    simp [Finset.sum_const, Finset.card_range, nsmul_eq_mul]
  rw [hs]
  exact div_self (Nat.cast_ne_zero.mpr (Nat.mul_ne_zero h0.ne' h0'.ne'))

lemma meanOverMap_in_unit_interval (oh ow : ℕ) (f : ℕ → ℕ → ℚ) (h0 : 0 < oh)
    (h0' : 0 < ow) (hf : ∀ i j, -1 ≤ f i j ∧ f i j ≤ 1) :
    -1 ≤ meanOverMap oh ow f ∧ meanOverMap oh ow f ≤ 1 := by
  have hcast : (0 : ℚ) < ((oh * ow : ℕ) : ℚ) :=
    Nat.cast_pos.mpr (Nat.mul_pos h0 h0')
  have hub : ∑ i ∈ Finset.range oh, ∑ j ∈ Finset.range ow, f i j
      ≤ ((oh * ow : ℕ) : ℚ) := by
    calc ∑ i ∈ Finset.range oh, ∑ j ∈ Finset.range ow, f i j
        ≤ ∑ i ∈ Finset.range oh, ∑ j ∈ Finset.range ow, (1 : ℚ) :=
          Finset.sum_le_sum fun i _ =>
            Finset.sum_le_sum fun j _ => (hf i j).2
      _ = ((oh * ow : ℕ) : ℚ) := by
          simp [Finset.sum_const, Finset.card_range, nsmul_eq_mul]
  have hlb : -((oh * ow : ℕ) : ℚ)
      ≤ ∑ i ∈ Finset.range oh, ∑ j ∈ Finset.range ow, f i j := by
    calc -((oh * ow : ℕ) : ℚ)
        = ∑ i ∈ Finset.range oh, ∑ j ∈ Finset.range ow, (-1 : ℚ) := by
          simp [Finset.sum_const, Finset.card_range, nsmul_eq_mul]
      _ ≤ ∑ i ∈ Finset.range oh, ∑ j ∈ Finset.range ow, f i j :=
          Finset.sum_le_sum fun i _ =>
            Finset.sum_le_sum fun j _ => (hf i j).1
  unfold meanOverMap
  constructor
  · rw [le_div_iff₀ hcast]
    linarith
  · rw [div_le_one hcast]
    exact hub

/-- **C5.** For every image `x`, `ssim(x, x) = 1` exactly (in exact
arithmetic), and for every pair of images each entry of the `ssim` output
lies in `[-1, 1]` — for any nonzero dynamic range and any normalized
nonnegative window (the properties the code establishes for its Gaussian
window). -/
theorem ssim_self_one_and_bounded (wgen : ℕ → ℕ → ℕ → ℚ) (d : ℚ) (h w : ℕ)
    (x img1 img2 : ℕ → ℕ → ℚ) (hd : d ≠ 0)
    (hpos : ∀ p q, p < realSize h w → q < realSize h w →
      0 ≤ wgen (realSize h w) p q)
    (hsum : ∑ p ∈ Finset.range (realSize h w),
        ∑ q ∈ Finset.range (realSize h w), wgen (realSize h w) p q = 1) :
    ssimUnweighted wgen d h w x x = 1 ∧
      -1 ≤ ssimUnweighted wgen d h w img1 img2 ∧
      ssimUnweighted wgen d h w img1 img2 ≤ 1 := by
  have hoh : 0 < convOutSize h (realSize h w) := by
    unfold convOutSize; omega
  have how : 0 < convOutSize w (realSize h w) := by
    unfold convOutSize; omega
  refine ⟨?_, ?_⟩
  · unfold ssimUnweighted
    exact meanOverMap_const_one _ _ _ hoh how
      (fun i j => mapSsim_self_one _ _ _ _ i j hd hpos hsum)
  · unfold ssimUnweighted
    exact meanOverMap_in_unit_interval _ _ _ hoh how
      (fun i j => mapSsim_bounds _ _ _ _ _ i j hd hpos hsum)

/-- Witness for `ssim_self_one_and_bounded` at a `1 × 1` image with the
degenerate (single-weight) window. -/
theorem ssim_self_one_and_bounded_witness :
    ssimUnweighted (fun _ _ _ => 1) 1 1 1 (fun _ _ => 0) (fun _ _ => 0) = 1 ∧
      -1 ≤ ssimUnweighted (fun _ _ _ => 1) 1 1 1 (fun _ _ => 1) (fun _ _ => 0) ∧
      ssimUnweighted (fun _ _ _ => 1) 1 1 1 (fun _ _ => 1) (fun _ _ => 0) ≤ 1 :=
  ssim_self_one_and_bounded (fun _ _ _ => 1) 1 1 1 (fun _ _ => 0)
    (fun _ _ => 1) (fun _ _ => 0) (by norm_num)
    (fun _ _ _ _ => by norm_num)
    (by norm_num [realSize, Finset.sum_range_one])

end Plenoptic
